import Mathlib

/-!
Verification development for the Magento-to-Shopify PLP content migration
repository.  The Python sources (script.py, validate_results.py,
analyze_migration_coverage.py, show_updated_collections.py,
show_collections_urls.py, quick_test.py) are shallowly embedded below:
pure string manipulation becomes Lean functions on `String`/`List Char`,
Python dictionaries become association lists with insert-or-overwrite
semantics, CSV files become a `Grid` of header and rows, and fallible file
reads become `Except`-valued inputs.
-/

set_option autoImplicit false

namespace PLPMigration

/-! ## Python string primitives

Models of the CPython `str` operations used by the scripts: `str.strip`
(with and without an argument), `str.split` on a one-character separator,
and `str.replace(c, '')`. -/

/-- Characters for which CPython `str.isspace` holds (the set stripped by
`str.strip()` with no argument). -/
def pyWhitespace : List Char :=
  [' ', '\t', '\n', '\r', Char.ofNat 0x0B, Char.ofNat 0x0C,
   Char.ofNat 0x1C, Char.ofNat 0x1D, Char.ofNat 0x1E, Char.ofNat 0x1F,
   Char.ofNat 0x85, Char.ofNat 0xA0, Char.ofNat 0x1680,
   Char.ofNat 0x2000, Char.ofNat 0x2001, Char.ofNat 0x2002, Char.ofNat 0x2003,
   Char.ofNat 0x2004, Char.ofNat 0x2005, Char.ofNat 0x2006, Char.ofNat 0x2007,
   Char.ofNat 0x2008, Char.ofNat 0x2009, Char.ofNat 0x200A,
   Char.ofNat 0x2028, Char.ofNat 0x2029, Char.ofNat 0x202F,
   Char.ofNat 0x205F, Char.ofNat 0x3000]

def pyIsSpace (c : Char) : Bool := pyWhitespace.contains c

/-- Python `s.strip(chars)`: remove the longest run of characters satisfying
`p` from both ends. -/
def pyStripPred (p : Char → Bool) (s : String) : String :=
  String.mk ((s.data.dropWhile p).rdropWhile p)

/-- Python `s.strip()` (no argument). -/
def pyStrip (s : String) : String := pyStripPred pyIsSpace s

/-- Python `s.strip(c)` for a single character `c`. -/
def pyStripChar (c : Char) (s : String) : String := pyStripPred (· == c) s

/-- Python `s.replace(c, '')` for a single character `c`. -/
def removeChar (c : Char) (s : String) : String :=
  String.mk (s.data.filter (fun x => !(x == c)))

/-- Python `s.split(c)` for a one-character separator (no maxsplit):
`"".split(c) = [""]`, empty fields are kept. -/
def splitChar (c : Char) : List Char → List (List Char)
  | [] => [[]]
  | a :: t =>
    if a == c then [] :: splitChar c t
    else
      match splitChar c t with
      | [] => [[a]]
      | h :: r => (a :: h) :: r

/-- String-level wrapper of `splitChar`. -/
def splitCharS (c : Char) (s : String) : List String :=
  (splitChar c s.data).map String.mk

/-- Truncate a list at the first occurrence of `c` (Python
`s.split(c, 1)[0]`, i.e. everything before the first `c`; the whole list
when `c` is absent). -/
def beforeChar (c : Char) : List Char → List Char
  | [] => []
  | a :: t => if a == c then [] else a :: beforeChar c t

/-- `spanUntil p l = (before, rest)` where `before` is the longest prefix
whose characters all fail `p` and `rest` starts at the first character
satisfying `p` (CPython's "find the first of these delimiters" idiom). -/
def spanUntil (p : Char → Bool) : List Char → List Char × List Char
  | [] => ([], [])
  | a :: t =>
    if p a then ([], a :: t)
    else
      let s := spanUntil p t
      (a :: s.1, s.2)

/-! ## CPython `urllib.parse.urlparse` — path component

Model of the parts of CPython `urllib.parse` (3.10-era `urlsplit` plus the
`urlparse` params split) that determine `urlparse(url).path`, the only
component the scripts consult.  `urlsplit` left-strips WHATWG C0
control/space characters, removes tab/CR/LF everywhere, splits off a valid
scheme, a `//netloc` (raising `ValueError` on unbalanced square brackets),
then the fragment and the query; `urlparse` finally splits `;params` off
the last path segment for schemes in `uses_params`. -/

def isC0OrSpace (c : Char) : Bool := c.toNat ≤ 0x20

def isUnsafeUrlChar (c : Char) : Bool := c == '\t' || c == '\r' || c == '\n'

def sanitize (l : List Char) : List Char :=
  (l.dropWhile isC0OrSpace).filter (fun c => !(isUnsafeUrlChar c))

def isAsciiAlpha (c : Char) : Bool :=
  (97 ≤ c.toNat && c.toNat ≤ 122) || (65 ≤ c.toNat && c.toNat ≤ 90)

/-- CPython `scheme_chars`. -/
def isSchemeChar (c : Char) : Bool :=
  isAsciiAlpha c || (48 ≤ c.toNat && c.toNat ≤ 57) || c == '+' || c == '-' || c == '.'

def lowerAscii (c : Char) : Char :=
  if 65 ≤ c.toNat ∧ c.toNat ≤ 90 then Char.ofNat (c.toNat + 32) else c

/-- Scheme split: `url[:i]` before the first `:` is a scheme when it is
nonempty, starts with an ASCII letter and continues with scheme characters;
the scheme is lowercased.  Returns `(scheme, rest)`. -/
def splitScheme (u : List Char) : List Char × List Char :=
  match spanUntil (· == ':') u with
  | (_, []) => ([], u)
  | (before, _ :: rest) =>
    match before with
    | [] => ([], u)
    | b :: bs =>
      if isAsciiAlpha b && bs.all isSchemeChar then ((b :: bs).map lowerAscii, rest)
      else ([], u)

def isNetlocDelim (c : Char) : Bool := c == '/' || c == '?' || c == '#'

/-- Netloc split: when the remainder starts with `//` (CPython
`url[:2] == '//'`), the netloc runs to the first of `/?#`; mismatched
square brackets raise `ValueError("Invalid IPv6 URL")`.  Returns
`(netloc, rest)`. -/
def splitNetloc (u : List Char) : Except String (List Char × List Char) :=
  if u.take 2 = ['/', '/'] then
    if (('[' ∈ (spanUntil isNetlocDelim (u.drop 2)).1) ∧
        (']' ∉ (spanUntil isNetlocDelim (u.drop 2)).1)) ∨
       ((']' ∈ (spanUntil isNetlocDelim (u.drop 2)).1) ∧
        ('[' ∉ (spanUntil isNetlocDelim (u.drop 2)).1)) then
      Except.error "Invalid IPv6 URL"
    else Except.ok (spanUntil isNetlocDelim (u.drop 2))
  else Except.ok ([], u)

/-- CPython `uses_params`: schemes for which `urlparse` splits `;params`
off the last path segment. -/
def usesParams : List String :=
  ["", "ftp", "hdl", "prospero", "http", "imap", "https", "shttp", "rtsp",
   "rtspu", "sip", "sips", "mms", "sftp", "tel"]

/-- CPython `_splitparams`, applied by `urlparse` when the scheme is in
`uses_params` and the path contains `;`: drop `;...` from the segment after
the last `/` (or from the whole path when there is no `/`). -/
def splitParams (scheme path : List Char) : List Char :=
  if (String.mk scheme ∈ usesParams) ∧ (';' ∈ path) then
    if '/' ∈ path then
      let afterLastSlash := (spanUntil (· == '/') path.reverse).1.reverse
      if ';' ∈ afterLastSlash then
        path.take (path.length - afterLastSlash.length) ++ beforeChar ';' afterLastSlash
      else path
    else beforeChar ';' path
  else path

/-- The path component computed by `urlparse` on an already-sanitized
character list: scheme split, netloc split, then everything before the
first `#`, then before the first `?`, then the params split. -/
def parsePath (u : List Char) : Except String (List Char) :=
  match splitNetloc (splitScheme u).2 with
  | Except.error e => Except.error e
  | Except.ok n =>
    Except.ok (splitParams (splitScheme u).1 (beforeChar '?' (beforeChar '#' n.2)))

/-- `urlparse(url).path` for a string URL; `Except.error` models the
`ValueError` raised on an invalid IPv6 netloc. -/
def urlparse_path (url : String) : Except String String :=
  (parsePath (sanitize url.data)).map String.mk

/-! ## script.py / validate_results.py / analyze_migration_coverage.py:
`extract_handle_from_url` (identical in all three) -/

/-- `re.sub(r'\.html$', '', handle)`: remove one trailing `.html`
(case-sensitive; the regex can match at most once, at the very end). -/
def stripHtmlSuffix (h : String) : String :=
  if ".html".data.isSuffixOf h.data then String.mk (h.data.take (h.data.length - 5))
  else h

/-- `extract_handle_from_url`: parse the URL, strip `/` from both ends of
the path, split on `/`, drop empty segments, take the last segment and
remove a trailing `.html`; `None` on an empty URL, a parse error, or no
nonempty segment. -/
def extract_handle_from_url (url : String) : Option String :=
  if url = "" then none
  else
    match urlparse_path url with
    | Except.error _ => none
    | Except.ok p =>
      let path := pyStripChar '/' p
      let segments := (splitCharS '/' path).filter (fun s => s ≠ "")
      match segments.getLast? with
      | none => none
      | some h => some (stripHtmlSuffix h)

/-! ## `clean_field_name` (identical in script.py, validate_results.py,
analyze_migration_coverage.py, show_updated_collections.py,
show_collections_urls.py) -/

/-- The byte-order mark U+FEFF. -/
def bomChar : Char := Char.ofNat 0xFEFF

/-- `field_name.replace(BOM, '').strip().strip('"').strip(single-quote)`,
with `""` returned for a falsy (empty) input.  `Char.ofNat 39` is the
single-quote character. -/
def clean_field_name (field_name : String) : String :=
  if field_name = "" then ""
  else
    pyStripChar (Char.ofNat 39) (pyStripChar '"' (pyStrip (removeChar bomChar field_name)))

/-! ## Python dictionaries as association lists

A CSV row (`csv.DictReader` row, cleaned) is a Python `dict` from column
name to cell value.  Insertion order is preserved; assigning to an existing
key overwrites its value in place, assigning to a fresh key appends. -/

/-- A record: one CSV row as an ordered association list. -/
abbrev Record := List (String × String)

/-- `d.get(k)` / `d[k]`: value of the first (unique, for genuine dicts)
binding of `k`. -/
def dictGet {β : Type} : List (String × β) → String → Option β
  | [], _ => none
  | (k₀, v) :: t, k => if k = k₀ then some v else dictGet t k

/-- `d.get(k, dflt)`. -/
def dictGetD {β : Type} (d : List (String × β)) (k : String) (dflt : β) : β :=
  (dictGet d k).getD dflt

/-- `d[k] = v`: overwrite in place when `k` is present, append otherwise. -/
def dictSet {β : Type} : List (String × β) → String → β → List (String × β)
  | [], k, v => [(k, v)]
  | (k₀, v₀) :: t, k, v =>
    if k = k₀ then (k₀, v) :: t else (k₀, v₀) :: dictSet t k v

/-- A CSV file: header row plus data rows (`csv.DictReader` consumes the
header; each data row has one cell per header column). -/
structure Grid where
  header : List String
  rows : List (List String)
deriving DecidableEq

/-- The per-row cleanup done identically by every loader:
`cleaned_row[clean_field_name(key)] = value.strip() if value else ""`. -/
def cleanRow (header : List String) (row : List String) : Record :=
  (header.zip row).foldl
    (fun acc kv => dictSet acc (clean_field_name kv.1) (pyStrip kv.2)) []

/-! ## script.py: `create_html_content` -/

/-- CPython `html.escape(s, quote=True)`: the five sequential single-char
replaces `&`→`&amp;`, `<`→`&lt;`, `>`→`&gt;`, `"`→`&quot;`,
single-quote→`&#x27;`. -/
def replaceCharBy (c : Char) (r : String) (s : String) : String :=
  String.mk (s.data.flatMap (fun ch => if ch = c then r.data else [ch]))

def html_escape (s : String) : String :=
  replaceCharBy (Char.ofNat 39) "&#x27;"
    (replaceCharBy '"' "&quot;"
      (replaceCharBy '>' "&gt;"
        (replaceCharBy '<' "&lt;"
          (replaceCharBy '&' "&amp;" s))))

/-- Python `''.join(parts)`. -/
def strJoin : List String → String
  | [] => ""
  | s :: t => s ++ strJoin t

/-- `create_html_content`: build `html_parts` (container open, then `<h1>`,
`<h2>`, `<p>`, inner `<div>` each only for a truthy source value, then
container close) and join them. -/
def create_html_content (title subheading description content_under_listing : String) :
    String :=
  let html_parts := ["<div class=\"collection-description\">"]
  let html_parts := if title ≠ "" then
      html_parts ++ ["<h1>" ++ html_escape title ++ "</h1>"] else html_parts
  let html_parts := if subheading ≠ "" then
      html_parts ++ ["<h2>" ++ html_escape subheading ++ "</h2>"] else html_parts
  let html_parts := if description ≠ "" then
      html_parts ++ ["<p>" ++ html_escape description ++ "</p>"] else html_parts
  let html_parts := if content_under_listing ≠ "" then
      html_parts ++ ["<div class=\"content-under-listing\">" ++
        html_escape content_under_listing ++ "</div>"] else html_parts
  strJoin (html_parts ++ ["</div>"])

/-! ## Loaders

File input is modelled as `Except String Grid`: `Except.error` is an I/O
or decode failure raised while opening/reading the file.  Loaders whose
Python wraps the body in `try/except ...: raise` propagate the error;
those whose `except` returns `{}` produce an empty mapping instead. -/

/-- The content attached to one handle by script.py `load_plp_content`. -/
structure PLPContent where
  title : String
  subheading : String
  description : String
  content_under_listing : String
deriving DecidableEq

def plpContentOfRow (row : Record) : PLPContent :=
  { title := dictGetD row "Title" ""
    subheading := dictGetD row "Sub-heading" ""
    description := dictGetD row "Description" ""
    content_under_listing := dictGetD row "Content under product listing" "" }

/-- script.py `load_plp_content`: collect cleaned rows in order and map
each truthy extracted handle to its content (`except: raise`). -/
def script_load_plp_content (input : Except String Grid) :
    Except String (List Record × List (String × PLPContent)) :=
  match input with
  | Except.error e => Except.error e
  | Except.ok g =>
    Except.ok (g.rows.foldl
      (fun st r =>
        let cleaned := cleanRow g.header r
        let url := dictGetD cleaned "URL" ""
        let entries := st.1 ++ [cleaned]
        match extract_handle_from_url url with
        | some handle =>
          if handle ≠ "" then (entries, dictSet st.2 handle (plpContentOfRow cleaned))
          else (entries, st.2)
        | none => (entries, st.2))
      ([], []))

/-- script.py `load_shopify_categories`: every cleaned row, in order, no
filtering (`except: raise`). -/
def script_load_shopify_categories (input : Except String Grid) :
    Except String (List Record) :=
  match input with
  | Except.error e => Except.error e
  | Except.ok g => Except.ok (g.rows.map (fun r => cleanRow g.header r))

/-- validate_results.py `load_csv_file`: key by `URL` (PLP mode) or `ID`,
keep rows with a truthy key; on failure the `except` block returns `{}`. -/
def validation_load_csv_file (is_plp : Bool) (input : Except String Grid) :
    List (String × Record) :=
  match input with
  | Except.error _ => []
  | Except.ok g =>
    if is_plp then
      g.rows.foldl
        (fun d r =>
          let cleaned := cleanRow g.header r
          let url := dictGetD cleaned "URL" ""
          if url ≠ "" then dictSet d url cleaned else d) []
    else
      g.rows.foldl
        (fun d r =>
          let cleaned := cleanRow g.header r
          let category_id := dictGetD cleaned "ID" ""
          if category_id ≠ "" then dictSet d category_id cleaned else d) []

/-- validate_results.py `load_csv_file` (PLP mode) side effect on
`self.content_map`: handle-keyed cleaned rows. -/
def validation_content_map (g : Grid) : List (String × Record) :=
  g.rows.foldl
    (fun m r =>
      let cleaned := cleanRow g.header r
      let url := dictGetD cleaned "URL" ""
      if url ≠ "" then
        match extract_handle_from_url url with
        | some h => if h ≠ "" then dictSet m h cleaned else m
        | none => m
      else m) []

/-- analyze_migration_coverage.py `load_shopify_data`: key by `Handle`,
skipping falsy handles and the literal `"Handle"` (`except: raise`). -/
def analyzer_load_shopify_data (input : Except String Grid) :
    Except String (List (String × Record)) :=
  match input with
  | Except.error e => Except.error e
  | Except.ok g =>
    Except.ok (g.rows.foldl
      (fun d r =>
        let cleaned := cleanRow g.header r
        let handle := dictGetD cleaned "Handle" ""
        if handle ≠ "" ∧ handle ≠ "Handle" then dictSet d handle cleaned else d) [])

/-- quick_test.py `load_updated_categories`: key by `ID`, truthy keys only;
the `except` block returns `{}`. -/
def quicktest_load_updated_categories (input : Except String Grid) :
    List (String × Record) :=
  match input with
  | Except.error _ => []
  | Except.ok g =>
    g.rows.foldl
      (fun d r =>
        let cleaned := cleanRow g.header r
        let category_id := dictGetD cleaned "ID" ""
        if category_id ≠ "" then dictSet d category_id cleaned else d) []

/-- show_updated_collections.py `load_csv_data`: key by `Handle`, skipping
falsy handles and the literal `"Handle"`; the `except` block returns `{}`. -/
def showupdated_load_csv_data (input : Except String Grid) :
    List (String × Record) :=
  match input with
  | Except.error _ => []
  | Except.ok g =>
    g.rows.foldl
      (fun d r =>
        let cleaned := cleanRow g.header r
        let handle := dictGetD cleaned "Handle" ""
        if handle ≠ "" ∧ handle ≠ "Handle" then dictSet d handle cleaned else d) []

/-! ## script.py: `update_shopify_categories` -/

/-- The dynamically named subheading metafield column. -/
def subheadingField : String :=
  "Metafield: custom.collection_subheading [single_line_text_field]"

/-- The three conditional field writes applied to one matched category. -/
def update_one (content : PLPContent) (category : Record) : Record :=
  let category :=
    if content.title ≠ "" then dictSet category "Title" content.title else category
  let category :=
    if content.description ≠ "" then
      dictSet category "Body HTML"
        (create_html_content content.title content.subheading content.description
          content.content_under_listing)
    else category
  if content.subheading ≠ "" then dictSet category subheadingField content.subheading
  else category

/-- Processing of the category at position `i`: position 0 is skipped
("Skip header if it exists"); otherwise update on a handle match. -/
def processCat (content_map : List (String × PLPContent)) (i : Nat) (category : Record) :
    Record :=
  if i = 0 then category
  else
    match dictGet content_map (dictGetD category "Handle" "") with
    | some content => update_one content category
    | none => category

def updateCats (content_map : List (String × PLPContent)) :
    Nat → List Record → List Record
  | _, [] => []
  | i, c :: t => processCat content_map i c :: updateCats content_map (i + 1) t

structure UpdateResult where
  categories : List Record
  updated : Nat
  no_match : Nat
deriving DecidableEq

/-- `update_shopify_categories`: per-record `dict(category)` copies, the
indexed loop with its position-0 skip, and the updated / no-match
counters. -/
def update_shopify_categories (content_map : List (String × PLPContent))
    (shopify_categories : List Record) : UpdateResult :=
  { categories := updateCats content_map 0 shopify_categories
    updated := (shopify_categories.drop 1).countP
      (fun c => (dictGet content_map (dictGetD c "Handle" "")).isSome)
    no_match := (shopify_categories.drop 1).countP
      (fun c => !(dictGet content_map (dictGetD c "Handle" "")).isSome) }

/-- script.py `save_updated_categories`: nothing is written for an empty
list; otherwise `csv.DictWriter` with the first record's keys writes the
header and, for every record, one cell per fieldname (`restval` empty). -/
def save_updated_categories (updated_categories : List Record) : Option Grid :=
  match updated_categories with
  | [] => none
  | c₀ :: _ =>
    let fieldnames := c₀.map Prod.fst
    some { header := fieldnames
           rows := updated_categories.map (fun r => fieldnames.map (fun k => dictGetD r k "")) }

/-! ## validate_results.py: `find_changes` -/

/-- One entry of `self.changes`. -/
structure ChangeInfo where
  category_id : String
  handle : String
  original_title : String
  updated_title : String
  has_html_content : Bool
  has_subheading : Bool
  changes : List String
  html_preview : String
deriving DecidableEq

def titleChangeStr (o u : String) : String :=
  "Title: \x27" ++ o ++ "\x27 ‚Üí \x27" ++ u ++ "\x27"

def htmlChangeStr : String := "Body HTML: Updated with new content"

def subheadingChangeStr (o u : String) : String :=
  "Subheading: \x27" ++ o ++ "\x27 ‚Üí \x27" ++ u ++ "\x27"

/-- The `changes_found` list for one original/updated record pair: each of
the three attributes is listed exactly when the updated value differs from
the original and is truthy. -/
def changesFound (original_category updated_category : Record) : List String :=
  let original_title := dictGetD original_category "Title" ""
  let updated_title := dictGetD updated_category "Title" ""
  let original_html := dictGetD original_category "Body HTML" ""
  let updated_html := dictGetD updated_category "Body HTML" ""
  let original_subheading := dictGetD original_category subheadingField ""
  let updated_subheading := dictGetD updated_category subheadingField ""
  (if original_title ≠ updated_title ∧ updated_title ≠ "" then
      [titleChangeStr original_title updated_title] else []) ++
  (if original_html ≠ updated_html ∧ updated_html ≠ "" then [htmlChangeStr] else []) ++
  (if original_subheading ≠ updated_subheading ∧ updated_subheading ≠ "" then
      [subheadingChangeStr original_subheading updated_subheading] else [])

def mkChangeInfo (category_id : String) (original_category updated_category : Record)
    (changes_found : List String) : ChangeInfo :=
  let updated_html := dictGetD updated_category "Body HTML" ""
  { category_id := category_id
    handle := dictGetD updated_category "Handle" ""
    original_title := dictGetD original_category "Title" ""
    updated_title := dictGetD updated_category "Title" ""
    has_html_content := updated_html ≠ ""
    has_subheading := dictGetD updated_category subheadingField "" ≠ ""
    changes := changes_found
    html_preview :=
      if 200 < updated_html.data.length then String.mk (updated_html.data.take 200) ++ "..."
      else updated_html }

/-- validate_results.py `find_changes`: walk the updated mapping in order,
skip ids with a falsy (missing or empty) original record, and report each
record whose `changes_found` is nonempty. -/
def find_changes (original_categories updated_categories : List (String × Record)) :
    List ChangeInfo :=
  updated_categories.foldl
    (fun acc kv =>
      match dictGet original_categories kv.1 with
      | none => acc
      | some original_category =>
        if original_category = [] then acc
        else
          let cf := changesFound original_category kv.2
          if cf ≠ [] then acc ++ [mkChangeInfo kv.1 original_category kv.2 cf] else acc)
    []

/-! ## Heap model of `update_shopify_categories` lines 174-175

The Python copies each loaded dict (`[dict(category) for category in
self.shopify_categories]`) and then mutates the copies in place.  To state
the frame property about the *original* objects faithfully we model the
heap: a store of records, with `self.shopify_categories` a list of
references into it.  The copy phase allocates fresh cells at the end of the
store; the mutation loop writes only through the fresh references. -/

structure HeapState where
  store : List Record
  shopify_refs : List Nat
  updated_refs : List Nat

/-- `[dict(category) for category in self.shopify_categories]`. -/
def copyPhase (s : HeapState) : HeapState :=
  { store := s.store ++ s.shopify_refs.map (fun r => s.store.getD r [])
    shopify_refs := s.shopify_refs
    updated_refs := (List.range s.shopify_refs.length).map (· + s.store.length) }

/-- The indexed mutation loop, writing through each reference in turn. -/
def mutateLoop (content_map : List (String × PLPContent)) :
    Nat → List Nat → List Record → List Record
  | _, [], store => store
  | i, r :: t, store =>
    mutateLoop content_map (i + 1) t
      (if i = 0 then store
       else
         match dictGet content_map (dictGetD (store.getD r []) "Handle" "") with
         | some content => store.set r (update_one content (store.getD r []))
         | none => store)

/-- The whole of `update_shopify_categories` on the heap model. -/
def heap_update_shopify_categories (content_map : List (String × PLPContent))
    (s : HeapState) : HeapState :=
  let s₁ := copyPhase s
  { s₁ with store := mutateLoop content_map 0 s₁.updated_refs s₁.store }

/-! ## Association-list (Python dict) lemmas -/

theorem dictGet_dictSet_self {β : Type} (d : List (String × β)) (k : String) (v : β) :
    dictGet (dictSet d k v) k = some v := by
  induction d with
  | nil => simp [dictSet, dictGet]
  | cons p t ih =>
    obtain ⟨k₀, v₀⟩ := p
    by_cases h : k = k₀
    · simp [dictSet, dictGet, h]
    · simp [dictSet, dictGet, h, ih]

theorem dictGet_dictSet_ne {β : Type} (d : List (String × β)) (k k' : String) (v : β)
    (h : k' ≠ k) : dictGet (dictSet d k v) k' = dictGet d k' := by
  induction d with
  | nil => simp [dictSet, dictGet, h]
  | cons p t ih =>
    obtain ⟨k₀, v₀⟩ := p
    by_cases hk : k = k₀
    · subst hk; simp [dictSet, dictGet, h]
    · by_cases hk' : k' = k₀ <;> simp [dictSet, dictGet, hk, hk', ih]

/-! ## The merger: position-0 skip and the frame of `update_one` -/

theorem updateCats_getD (content_map : List (String × PLPContent)) :
    ∀ (cats : List Record) (j i : Nat), i < cats.length →
      (updateCats content_map j cats).getD i [] =
        processCat content_map (j + i) (cats.getD i []) := by
  intro cats
  induction cats with
  | nil => intro j i h; simp at h
  | cons c t ih =>
    intro j i h
    cases i with
    | zero => simp [updateCats]
    | succ i =>
      simp only [updateCats, List.getD_cons_succ]
      rw [ih (j + 1) i (by simpa using h)]
      congr 1
      omega

theorem get_title_set_html (d : Record) (v : String) :
    dictGet (dictSet d "Body HTML" v) "Title" = dictGet d "Title" :=
  dictGet_dictSet_ne _ _ _ _ (by decide)

theorem get_title_set_sub (d : Record) (v : String) :
    dictGet (dictSet d subheadingField v) "Title" = dictGet d "Title" :=
  dictGet_dictSet_ne _ _ _ _ (by decide)

theorem get_html_set_title (d : Record) (v : String) :
    dictGet (dictSet d "Title" v) "Body HTML" = dictGet d "Body HTML" :=
  dictGet_dictSet_ne _ _ _ _ (by decide)

theorem get_html_set_sub (d : Record) (v : String) :
    dictGet (dictSet d subheadingField v) "Body HTML" = dictGet d "Body HTML" :=
  dictGet_dictSet_ne _ _ _ _ (by decide)

theorem get_sub_set_title (d : Record) (v : String) :
    dictGet (dictSet d "Title" v) subheadingField = dictGet d subheadingField :=
  dictGet_dictSet_ne _ _ _ _ (by decide)

theorem get_sub_set_html (d : Record) (v : String) :
    dictGet (dictSet d "Body HTML" v) subheadingField = dictGet d subheadingField :=
  dictGet_dictSet_ne _ _ _ _ (by decide)

theorem update_one_get_title_of_empty (content : PLPContent) (cat : Record)
    (h : content.title = "") :
    dictGet (update_one content cat) "Title" = dictGet cat "Title" := by
  unfold update_one
  split_ifs <;> simp_all [get_title_set_html, get_title_set_sub]

theorem update_one_get_html_of_empty (content : PLPContent) (cat : Record)
    (h : content.description = "") :
    dictGet (update_one content cat) "Body HTML" = dictGet cat "Body HTML" := by
  unfold update_one
  split_ifs <;> simp_all [get_html_set_title, get_html_set_sub]

theorem update_one_get_subheading_of_empty (content : PLPContent) (cat : Record)
    (h : content.subheading = "") :
    dictGet (update_one content cat) subheadingField = dictGet cat subheadingField := by
  unfold update_one
  split_ifs <;> simp_all [get_sub_set_title, get_sub_set_html]

theorem update_one_get_other (content : PLPContent) (cat : Record) (k : String)
    (h1 : k ≠ "Title") (h2 : k ≠ "Body HTML") (h3 : k ≠ subheadingField) :
    dictGet (update_one content cat) k = dictGet cat k := by
  have e1 : ∀ (d : Record) v, dictGet (dictSet d "Title" v) k = dictGet d k :=
    fun d v => dictGet_dictSet_ne d _ k v h1
  have e2 : ∀ (d : Record) v, dictGet (dictSet d "Body HTML" v) k = dictGet d k :=
    fun d v => dictGet_dictSet_ne d _ k v h2
  have e3 : ∀ (d : Record) v, dictGet (dictSet d subheadingField v) k = dictGet d k :=
    fun d v => dictGet_dictSet_ne d _ k v h3
  unfold update_one
  split_ifs <;> simp [e1, e2, e3]

/-- Claim C2: away from position zero, a destination record whose handle
has no source entry is returned byte-for-byte unchanged by the merger; on
a match, an empty source title / description / subheading leaves the
corresponding destination field (Title / Body HTML / subheading metafield)
unchanged, and every attribute other than those three reads the same after
the merge. -/
theorem claim_C2_merge_frame (content_map : List (String × PLPContent))
    (cats : List Record) (i : Nat) (h0 : 0 < i) (hi : i < cats.length) :
    (dictGet content_map (dictGetD (cats.getD i []) "Handle" "") = none →
      (update_shopify_categories content_map cats).categories.getD i [] = cats.getD i []) ∧
    (∀ content,
      dictGet content_map (dictGetD (cats.getD i []) "Handle" "") = some content →
      (content.title = "" →
        dictGet ((update_shopify_categories content_map cats).categories.getD i []) "Title" =
          dictGet (cats.getD i []) "Title") ∧
      (content.description = "" →
        dictGet ((update_shopify_categories content_map cats).categories.getD i [])
            "Body HTML" = dictGet (cats.getD i []) "Body HTML") ∧
      (content.subheading = "" →
        dictGet ((update_shopify_categories content_map cats).categories.getD i [])
            subheadingField = dictGet (cats.getD i []) subheadingField) ∧
      (∀ k, k ≠ "Title" → k ≠ "Body HTML" → k ≠ subheadingField →
        dictGet ((update_shopify_categories content_map cats).categories.getD i []) k =
          dictGet (cats.getD i []) k)) := by
  have hne : ¬(i = 0) := by omega
  have hcat : (update_shopify_categories content_map cats).categories.getD i [] =
      processCat content_map i (cats.getD i []) := by
    show (updateCats content_map 0 cats).getD i [] = _
    rw [updateCats_getD content_map cats 0 i hi]
    simp
  constructor
  · intro hnone
    have hproc : processCat content_map i (cats.getD i []) = cats.getD i [] := by
      unfold processCat
      rw [if_neg hne, hnone]
    rw [hcat, hproc]
  · intro content hsome
    have hproc : processCat content_map i (cats.getD i []) =
        update_one content (cats.getD i []) := by
      unfold processCat
      rw [if_neg hne, hsome]
    rw [hcat, hproc]
    exact ⟨update_one_get_title_of_empty content _,
      update_one_get_html_of_empty content _,
      update_one_get_subheading_of_empty content _,
      fun k => update_one_get_other content _ k⟩

/-- Witness for C2 at a concrete input: a matched record (position 1) with
an all-empty source record keeps its Title. -/
theorem claim_C2_merge_frame_witness :
    dictGet ((update_shopify_categories
        [("h", ⟨"", "", "", ""⟩)]
        [[("Handle", "h0")], [("Handle", "h"), ("Title", "T"), ("X", "y")]]).categories.getD
        1 []) "Title" =
      dictGet (([[("Handle", "h0")],
        [("Handle", "h"), ("Title", "T"), ("X", "y")]] : List Record).getD 1 []) "Title" :=
  (((claim_C2_merge_frame [("h", ⟨"", "", "", ""⟩)]
      [[("Handle", "h0")], [("Handle", "h"), ("Title", "T"), ("X", "y")]] 1
      (by decide) (by decide)).2 ⟨"", "", "", ""⟩ rfl).1 rfl)

/-- Claim C3: the merger unconditionally leaves the record at position zero
of its input sequence untouched, whatever the source mapping. -/
theorem claim_C3_skips_first_record (content_map : List (String × PLPContent))
    (c : Record) (rest : List Record) :
    (update_shopify_categories content_map (c :: rest)).categories.head? = some c := by
  simp [update_shopify_categories, updateCats, processCat]

/-! ## Claim C4: load-failure behaviour of the loaders -/

/-- Counterexample to claim C4: validate_results.py's `load_csv_file`
swallows a read failure and returns an empty mapping instead of raising it
to the caller. -/
theorem claim_C4_counterexample :
    validation_load_csv_file false (Except.error "boom") = [] := rfl

/-- Claim C4 as amended: the loaders of script.py and
analyze_migration_coverage.py re-raise a load failure, while
validate_results.py's `load_csv_file`, quick_test.py's
`load_updated_categories` and show_updated_collections.py's
`load_csv_data` convert a load failure into an empty mapping. -/
theorem claim_C4_load_failure_amended (e : String) :
    script_load_plp_content (Except.error e) = Except.error e ∧
    script_load_shopify_categories (Except.error e) = Except.error e ∧
    analyzer_load_shopify_data (Except.error e) = Except.error e ∧
    (∀ is_plp, validation_load_csv_file is_plp (Except.error e) = []) ∧
    quicktest_load_updated_categories (Except.error e) = [] ∧
    showupdated_load_csv_data (Except.error e) = [] :=
  ⟨rfl, rfl, rfl, fun _ => rfl, rfl, rfl⟩

/-! ## Claim C5: `clean_field_name` -/

/-- Counterexample to claim C5: a name wrapped in two layers of single
quotes loses both layers (`str.strip` removes a whole run, not one layer),
so the inner layer is not kept. -/
theorem claim_C5_counterexample :
    clean_field_name "\x27\x27URL\x27\x27" = "URL" ∧
      clean_field_name "\x27\x27URL\x27\x27" ≠ "\x27URL\x27" := by decide

theorem mem_pyStripPred (p : Char → Bool) (s : String) (x : Char)
    (hx : x ∈ (pyStripPred p s).data) : x ∈ s.data := by
  simp only [pyStripPred] at hx
  have h1 : x ∈ s.data.dropWhile p :=
    (List.rdropWhile_prefix p (s.data.dropWhile p)).sublist.subset hx
  exact (List.dropWhile_sublist p).subset h1

/-- Claim C5 as amended: cleaning removes every byte-order mark, then trims
surrounding whitespace, then strips the whole surrounding run of double
quotes and then the whole surrounding run of single quotes (so repeated
layers of the same quote are all removed, and only a double-quote layer
inside single quotes survives); `"﻿URL"` still normalizes to `"URL"`. -/
theorem claim_C5_clean_field_name_amended :
    (∀ s, clean_field_name s =
      pyStripChar (Char.ofNat 39) (pyStripChar '"' (pyStrip (removeChar bomChar s)))) ∧
    (∀ s, (clean_field_name s).data.count bomChar = 0) ∧
    clean_field_name "﻿URL" = "URL" ∧
    clean_field_name "\x27\x27a\x27\x27" = "a" ∧
    clean_field_name "\x27\"a\"\x27" = "\"a\"" ∧
    clean_field_name "\"\x27a\x27\"" = "a" := by
  refine ⟨fun s => ?_, fun s => ?_, by decide, by decide, by decide, by decide⟩
  · by_cases h : s = ""
    · subst h; rfl
    · simp [clean_field_name, h]
  · rw [List.count_eq_zero]
    intro hx
    by_cases h : s = ""
    · rw [h] at hx; simp [clean_field_name] at hx
    · rw [clean_field_name, if_neg h] at hx
      have hx2 := mem_pyStripPred _ _ _ hx
      have hx3 := mem_pyStripPred _ _ _ hx2
      have hx4 := mem_pyStripPred _ _ _ hx3
      simp only [removeChar, List.mem_filter] at hx4
      simpa using hx4.2

/-! ## Claim C8: `create_html_content` -/

theorem mem_replaceCharBy (c : Char) (r s : String) (p : Char → Prop)
    (hr : ∀ x ∈ r.data, p x) (hs : ∀ x ∈ s.data, x ≠ c → p x) :
    ∀ x ∈ (replaceCharBy c r s).data, p x := by
  intro x hx
  simp only [replaceCharBy, List.mem_flatMap] at hx
  obtain ⟨a, ha, hxa⟩ := hx
  by_cases hac : a = c
  · rw [if_pos hac] at hxa
    exact hr x hxa
  · rw [if_neg hac] at hxa
    simp only [List.mem_singleton] at hxa
    obtain rfl := hxa
    exact hs _ ha hac

/-- A replace step whose replacement avoids `p` preserves `p`-freedom. -/
theorem replaceCharBy_preserves (c : Char) (r s : String) (p : Char → Prop)
    (hr : ∀ x ∈ r.data, p x) (hs : ∀ x ∈ s.data, p x) :
    ∀ x ∈ (replaceCharBy c r s).data, p x :=
  mem_replaceCharBy c r s p hr (fun x hx _ => hs x hx)

/-- A replace step whose replacement avoids `c` leaves no `c` behind. -/
theorem replaceCharBy_removes (c : Char) (r s : String)
    (hr : ∀ x ∈ r.data, x ≠ c) :
    ∀ x ∈ (replaceCharBy c r s).data, x ≠ c :=
  mem_replaceCharBy c r s (· ≠ c) hr (fun _ _ hx => hx)

theorem html_escape_char_free (s : String) :
    ∀ x ∈ (html_escape s).data, x ≠ '<' ∧ x ≠ '>' ∧ x ≠ '"' ∧ x ≠ Char.ofNat 39 := by
  have h2lt : ∀ x ∈ (replaceCharBy '<' "&lt;" (replaceCharBy '&' "&amp;" s)).data,
      x ≠ '<' := replaceCharBy_removes _ _ _ (by decide)
  have h3lt : ∀ x ∈ (replaceCharBy '>' "&gt;"
      (replaceCharBy '<' "&lt;" (replaceCharBy '&' "&amp;" s))).data, x ≠ '<' :=
    replaceCharBy_preserves _ _ _ _ (by decide) h2lt
  have h3gt : ∀ x ∈ (replaceCharBy '>' "&gt;"
      (replaceCharBy '<' "&lt;" (replaceCharBy '&' "&amp;" s))).data, x ≠ '>' :=
    replaceCharBy_removes _ _ _ (by decide)
  have h4lt : ∀ x ∈ (replaceCharBy '"' "&quot;" (replaceCharBy '>' "&gt;"
      (replaceCharBy '<' "&lt;" (replaceCharBy '&' "&amp;" s)))).data, x ≠ '<' :=
    replaceCharBy_preserves _ _ _ _ (by decide) h3lt
  have h4gt : ∀ x ∈ (replaceCharBy '"' "&quot;" (replaceCharBy '>' "&gt;"
      (replaceCharBy '<' "&lt;" (replaceCharBy '&' "&amp;" s)))).data, x ≠ '>' :=
    replaceCharBy_preserves _ _ _ _ (by decide) h3gt
  have h4q : ∀ x ∈ (replaceCharBy '"' "&quot;" (replaceCharBy '>' "&gt;"
      (replaceCharBy '<' "&lt;" (replaceCharBy '&' "&amp;" s)))).data, x ≠ '"' :=
    replaceCharBy_removes _ _ _ (by decide)
  intro x hx
  unfold html_escape at hx
  exact ⟨replaceCharBy_preserves _ _ _ _ (by decide) h4lt x hx,
    replaceCharBy_preserves _ _ _ _ (by decide) h4gt x hx,
    replaceCharBy_preserves _ _ _ _ (by decide) h4q x hx,
    replaceCharBy_removes _ _ _ (by decide) x hx⟩

theorem string_data_ext (a b : String) (h : a.data = b.data) : a = b := by
  cases a; cases b; exact congrArg String.mk h

theorem string_data_append (a b : String) : (a ++ b).data = a.data ++ b.data := by
  cases a; cases b; rfl

theorem string_append_assoc (a b c : String) : a ++ b ++ c = a ++ (b ++ c) :=
  string_data_ext _ _ (by simp [string_data_append])

theorem string_append_empty (a : String) : a ++ "" = a :=
  string_data_ext _ _ (by simp [string_data_append])

/-- Claim C8: the synthesized body HTML is the fixed container wrapping, in
order, an `<h1>` for the title, an `<h2>` sub-heading, a `<p>` description
and a `<div>` block for the supplementary text, each present exactly when
its source value is nonempty; and escaped interpolated values never contain
a raw `<`, `>`, `"` or single-quote character. -/
theorem claim_C8_html_content :
    (∀ t s d c, create_html_content t s d c =
      "<div class=\"collection-description\">" ++
        (if t ≠ "" then "<h1>" ++ html_escape t ++ "</h1>" else "") ++
        (if s ≠ "" then "<h2>" ++ html_escape s ++ "</h2>" else "") ++
        (if d ≠ "" then "<p>" ++ html_escape d ++ "</p>" else "") ++
        (if c ≠ "" then
          "<div class=\"content-under-listing\">" ++ html_escape c ++ "</div>"
         else "") ++
        "</div>") ∧
    (∀ s, ∀ x ∈ (html_escape s).data,
      x ≠ '<' ∧ x ≠ '>' ∧ x ≠ '"' ∧ x ≠ Char.ofNat 39) := by
  constructor
  · intro t s d c
    unfold create_html_content
    split_ifs <;>
      simp_all [strJoin, string_append_assoc, string_append_empty]
  · exact html_escape_char_free

/-- Witness for C8: the escape-character freedom applied at a concrete
string and character. -/
theorem claim_C8_html_content_witness :
    ('a' : Char) ≠ '<' ∧ ('a' : Char) ≠ '>' ∧ ('a' : Char) ≠ '"' ∧
      ('a' : Char) ≠ Char.ofNat 39 :=
  claim_C8_html_content.2 "<a>" 'a' (by decide)

/-! ## Claim C6: keyed-mapping loaders -/

theorem getLast?_cons_eq {α : Type} (a : α) (l : List α) :
    (a :: l).getLast? = some (l.getLast?.getD a) := by
  induction l generalizing a with
  | nil => rfl
  | cons b m ih =>
    rw [List.getLast?_cons_cons, ih b]
    simp

/-- Lookup after folding keyed inserts guarded by a key predicate: for a key
satisfying the predicate, the result is the value of the last row whose key
matches (later rows overwrite earlier ones), falling back to the initial
accumulator. -/
theorem foldl_keyed_lookup {P : String → Prop} [DecidablePred P]
    (keyOf : List String → String) (valOf : List String → Record) :
    ∀ (rows : List (List String)) (acc : List (String × Record)) (k : String), P k →
      dictGet (rows.foldl
        (fun d r => if P (keyOf r) then dictSet d (keyOf r) (valOf r) else d) acc) k =
      ((rows.filter fun r => keyOf r == k).getLast?.map
        (fun r => some (valOf r))).getD (dictGet acc k) := by
  intro rows
  induction rows with
  | nil => intro acc k _; simp
  | cons r t ih =>
    intro acc k hPk
    by_cases hk : keyOf r = k
    · have hPr : P (keyOf r) := by rw [hk]; exact hPk
      have hfilter : List.filter (fun r => keyOf r == k) (r :: t) =
          r :: List.filter (fun r => keyOf r == k) t := by
        simp [List.filter_cons, hk]
      rw [List.foldl_cons, if_pos hPr, ih _ k hPk, hfilter, getLast?_cons_eq]
      cases hlast : (t.filter fun r => keyOf r == k).getLast? with
      | none => simp [hlast, hk, dictGet_dictSet_self]
      | some r' => simp [hlast]
    · have hfilter : List.filter (fun r => keyOf r == k) (r :: t) =
          List.filter (fun r => keyOf r == k) t := by
        simp [List.filter_cons, hk]
      rw [List.foldl_cons, hfilter]
      by_cases hPr : P (keyOf r)
      · rw [if_pos hPr, ih _ k hPk]
        cases hlast : (t.filter fun r => keyOf r == k).getLast? with
        | none =>
          simp [hlast, dictGet_dictSet_ne acc (keyOf r) k (valOf r) (Ne.symm hk)]
        | some r' => simp [hlast]
      · rw [if_neg hPr, ih _ k hPk]

/-- Lookup of a key failing the predicate is untouched by the fold. -/
theorem foldl_keyed_skip {P : String → Prop} [DecidablePred P]
    (keyOf : List String → String) (valOf : List String → Record) :
    ∀ (rows : List (List String)) (acc : List (String × Record)) (k : String), ¬P k →
      dictGet (rows.foldl
        (fun d r => if P (keyOf r) then dictSet d (keyOf r) (valOf r) else d) acc) k =
      dictGet acc k := by
  intro rows
  induction rows with
  | nil => intro acc k _; rfl
  | cons r t ih =>
    intro acc k hPk
    rw [List.foldl_cons]
    by_cases hPr : P (keyOf r)
    · rw [if_pos hPr, ih _ k hPk,
        dictGet_dictSet_ne acc (keyOf r) k (valOf r) (fun h => hPk (h ▸ hPr))]
    · rw [if_neg hPr, ih _ k hPk]

/-- Counterexample to claim C6: the ID-keyed loader of validate_results.py
does not skip a row whose key equals the literal header label `"ID"`; the
row is included in the mapping. -/
theorem claim_C6_counterexample :
    dictGet (validation_load_csv_file false (Except.ok ⟨["ID"], [["ID"]]⟩)) "ID" =
      some [("ID", "ID")] := by decide

/-- Claim C6 as amended: the handle-keyed loaders (here
analyze_migration_coverage.py's) skip a row exactly when its key is empty
or the literal `"Handle"`, with later rows overwriting earlier ones; the
ID-keyed loader of validate_results.py skips only rows with an empty key
(no header-label guard), again last-wins. -/
theorem claim_C6_keyed_loader_amended :
    (∀ (g : Grid) (k : String) (m : List (String × Record)),
      analyzer_load_shopify_data (Except.ok g) = Except.ok m → k ≠ "" → k ≠ "Handle" →
      dictGet m k =
        ((g.rows.filter fun r =>
            dictGetD (cleanRow g.header r) "Handle" "" == k).getLast?).map
          (fun r => cleanRow g.header r)) ∧
    (∀ (g : Grid) (m : List (String × Record)),
      analyzer_load_shopify_data (Except.ok g) = Except.ok m →
      dictGet m "" = none ∧ dictGet m "Handle" = none) ∧
    (∀ (g : Grid) (k : String), k ≠ "" →
      dictGet (validation_load_csv_file false (Except.ok g)) k =
        ((g.rows.filter fun r =>
            dictGetD (cleanRow g.header r) "ID" "" == k).getLast?).map
          (fun r => cleanRow g.header r)) ∧
    (∀ g : Grid,
      dictGet (validation_load_csv_file false (Except.ok g)) "" = none) := by
  have hana : ∀ g : Grid, analyzer_load_shopify_data (Except.ok g) =
      Except.ok (g.rows.foldl
        (fun d r =>
          if dictGetD (cleanRow g.header r) "Handle" "" ≠ "" ∧
              dictGetD (cleanRow g.header r) "Handle" "" ≠ "Handle" then
            dictSet d (dictGetD (cleanRow g.header r) "Handle" "") (cleanRow g.header r)
          else d) []) :=
    fun g => rfl
  have hval : ∀ g : Grid, validation_load_csv_file false (Except.ok g) =
      g.rows.foldl
        (fun d r =>
          if dictGetD (cleanRow g.header r) "ID" "" ≠ "" then
            dictSet d (dictGetD (cleanRow g.header r) "ID" "") (cleanRow g.header r)
          else d) [] :=
    fun g => rfl
  refine ⟨fun g k m hm h1 h2 => ?_, fun g m hm => ⟨?_, ?_⟩, fun g k h1 => ?_, fun g => ?_⟩
  · rw [hana g] at hm
    injection hm with hm
    subst hm
    rw [@foldl_keyed_lookup (fun s => s ≠ "" ∧ s ≠ "Handle") _
      (fun r => dictGetD (cleanRow g.header r) "Handle" "")
      (fun r => cleanRow g.header r) g.rows [] k ⟨h1, h2⟩]
    cases (g.rows.filter fun r =>
        dictGetD (cleanRow g.header r) "Handle" "" == k).getLast? <;> rfl
  · rw [hana g] at hm
    injection hm with hm
    subst hm
    exact @foldl_keyed_skip (fun s => s ≠ "" ∧ s ≠ "Handle") _
      (fun r => dictGetD (cleanRow g.header r) "Handle" "")
      (fun r => cleanRow g.header r) g.rows [] "" (by simp)
  · rw [hana g] at hm
    injection hm with hm
    subst hm
    exact @foldl_keyed_skip (fun s => s ≠ "" ∧ s ≠ "Handle") _
      (fun r => dictGetD (cleanRow g.header r) "Handle" "")
      (fun r => cleanRow g.header r) g.rows [] "Handle" (by simp)
  · rw [hval g]
    rw [@foldl_keyed_lookup (fun s => s ≠ "") _
      (fun r => dictGetD (cleanRow g.header r) "ID" "")
      (fun r => cleanRow g.header r) g.rows [] k h1]
    cases (g.rows.filter fun r =>
        dictGetD (cleanRow g.header r) "ID" "" == k).getLast? <;> rfl
  · rw [hval g]
    exact @foldl_keyed_skip (fun s => s ≠ "") _
      (fun r => dictGetD (cleanRow g.header r) "ID" "")
      (fun r => cleanRow g.header r) g.rows [] "" (by simp)

/-- Witness for C6 (amended): a duplicate handle resolves to the later row
in the analyzer loader. -/
theorem claim_C6_keyed_loader_amended_witness :
    dictGet ((analyzer_load_shopify_data
        (Except.ok ⟨["Handle", "Title"],
          [["h", "A"], ["Handle", "B"], ["h", "C"]]⟩)).toOption.getD []) "h" =
      some [("Handle", "h"), ("Title", "C")] := by
  rw [claim_C6_keyed_loader_amended.1
    ⟨["Handle", "Title"], [["h", "A"], ["Handle", "B"], ["h", "C"]]⟩ "h"
    ((analyzer_load_shopify_data
      (Except.ok ⟨["Handle", "Title"],
        [["h", "A"], ["Handle", "B"], ["h", "C"]]⟩)).toOption.getD [])
    rfl (by decide) (by decide)]
  decide

/-! ## Claim C7: the change reporter -/

theorem ne_of_data_head (a b : String) (h : a.data.head? ≠ b.data.head?) : a ≠ b :=
  fun e => h (congrArg (fun s => s.data.head?) e)

theorem titleChangeStr_ne_html (o u : String) : titleChangeStr o u ≠ htmlChangeStr := by
  apply ne_of_data_head
  simp only [titleChangeStr, htmlChangeStr, string_data_append]
  simp

theorem titleChangeStr_ne_subheading (o u o' u' : String) :
    titleChangeStr o u ≠ subheadingChangeStr o' u' := by
  apply ne_of_data_head
  simp only [titleChangeStr, subheadingChangeStr, string_data_append]
  simp

theorem subheadingChangeStr_ne_html (o u : String) :
    subheadingChangeStr o u ≠ htmlChangeStr := by
  apply ne_of_data_head
  simp only [subheadingChangeStr, htmlChangeStr, string_data_append]
  simp

/-- `changesFound` with its lets unfolded. -/
theorem changesFound_eq (o u : Record) : changesFound o u =
    (if dictGetD o "Title" "" ≠ dictGetD u "Title" "" ∧ dictGetD u "Title" "" ≠ "" then
      [titleChangeStr (dictGetD o "Title" "") (dictGetD u "Title" "")] else []) ++
    (if dictGetD o "Body HTML" "" ≠ dictGetD u "Body HTML" "" ∧
        dictGetD u "Body HTML" "" ≠ "" then [htmlChangeStr] else []) ++
    (if dictGetD o subheadingField "" ≠ dictGetD u subheadingField "" ∧
        dictGetD u subheadingField "" ≠ "" then
      [subheadingChangeStr (dictGetD o subheadingField "") (dictGetD u subheadingField "")]
     else []) := rfl

theorem title_mem_changesFound (o u : Record) :
    titleChangeStr (dictGetD o "Title" "") (dictGetD u "Title" "") ∈ changesFound o u ↔
      (dictGetD u "Title" "" ≠ dictGetD o "Title" "" ∧ dictGetD u "Title" "" ≠ "") := by
  rw [changesFound_eq]
  by_cases c1 : dictGetD o "Title" "" ≠ dictGetD u "Title" "" ∧ dictGetD u "Title" "" ≠ ""
  · exact iff_of_true (by simp [c1]) ⟨Ne.symm c1.1, c1.2⟩
  · apply iff_of_false
    · intro hmem
      rw [if_neg c1] at hmem
      simp only [List.nil_append, List.mem_append] at hmem
      rcases hmem with hB | hC
      · split_ifs at hB
        · simp only [List.mem_singleton] at hB
          exact titleChangeStr_ne_html _ _ hB
        · simp at hB
      · split_ifs at hC
        · simp only [List.mem_singleton] at hC
          exact titleChangeStr_ne_subheading _ _ _ _ hC
        · simp at hC
    · exact fun hc => c1 ⟨Ne.symm hc.1, hc.2⟩

theorem html_mem_changesFound (o u : Record) :
    htmlChangeStr ∈ changesFound o u ↔
      (dictGetD u "Body HTML" "" ≠ dictGetD o "Body HTML" "" ∧
        dictGetD u "Body HTML" "" ≠ "") := by
  rw [changesFound_eq]
  by_cases c2 : dictGetD o "Body HTML" "" ≠ dictGetD u "Body HTML" "" ∧
      dictGetD u "Body HTML" "" ≠ ""
  · exact iff_of_true (by simp [c2]) ⟨Ne.symm c2.1, c2.2⟩
  · apply iff_of_false
    · intro hmem
      rw [if_neg c2] at hmem
      simp only [List.append_nil, List.nil_append, List.mem_append] at hmem
      rcases hmem with hA | hC
      · split_ifs at hA
        · simp only [List.mem_singleton] at hA
          exact titleChangeStr_ne_html _ _ hA.symm
        · simp at hA
      · split_ifs at hC
        · simp only [List.mem_singleton] at hC
          exact subheadingChangeStr_ne_html _ _ hC.symm
        · simp at hC
    · exact fun hc => c2 ⟨Ne.symm hc.1, hc.2⟩

theorem subheading_mem_changesFound (o u : Record) :
    subheadingChangeStr (dictGetD o subheadingField "") (dictGetD u subheadingField "") ∈
        changesFound o u ↔
      (dictGetD u subheadingField "" ≠ dictGetD o subheadingField "" ∧
        dictGetD u subheadingField "" ≠ "") := by
  rw [changesFound_eq]
  by_cases c3 : dictGetD o subheadingField "" ≠ dictGetD u subheadingField "" ∧
      dictGetD u subheadingField "" ≠ ""
  · exact iff_of_true (by simp [c3]) ⟨Ne.symm c3.1, c3.2⟩
  · apply iff_of_false
    · intro hmem
      rw [if_neg c3] at hmem
      simp only [List.append_nil, List.mem_append] at hmem
      rcases hmem with hA | hB
      · split_ifs at hA
        · simp only [List.mem_singleton] at hA
          exact titleChangeStr_ne_subheading _ _ _ _ hA.symm
        · simp at hA
      · split_ifs at hB
        · simp only [List.mem_singleton] at hB
          exact subheadingChangeStr_ne_html _ _ hB
        · simp at hB
    · exact fun hc => c3 ⟨Ne.symm hc.1, hc.2⟩

/-- Claim C7: for each pair of before/after records, an attribute (Title,
Body HTML, subheading metafield — and nothing else) is listed as changed
exactly when the after value differs from the before value and is
nonempty; on before `{"tacori": {"Title": "Tacori"}}` and after
`{"tacori": {"Title": "Tacori Rings"}}` the reporter returns exactly one
change entry, for key `"tacori"`, naming Title with both values. -/
theorem claim_C7_change_reporter :
    (∀ original_category updated_category : Record,
      (titleChangeStr (dictGetD original_category "Title" "")
          (dictGetD updated_category "Title" "") ∈
            changesFound original_category updated_category ↔
        (dictGetD updated_category "Title" "" ≠ dictGetD original_category "Title" "" ∧
          dictGetD updated_category "Title" "" ≠ "")) ∧
      (htmlChangeStr ∈ changesFound original_category updated_category ↔
        (dictGetD updated_category "Body HTML" "" ≠
            dictGetD original_category "Body HTML" "" ∧
          dictGetD updated_category "Body HTML" "" ≠ "")) ∧
      (subheadingChangeStr (dictGetD original_category subheadingField "")
          (dictGetD updated_category subheadingField "") ∈
            changesFound original_category updated_category ↔
        (dictGetD updated_category subheadingField "" ≠
            dictGetD original_category subheadingField "" ∧
          dictGetD updated_category subheadingField "" ≠ "")) ∧
      (∀ x ∈ changesFound original_category updated_category,
        x = titleChangeStr (dictGetD original_category "Title" "")
              (dictGetD updated_category "Title" "") ∨
        x = htmlChangeStr ∨
        x = subheadingChangeStr (dictGetD original_category subheadingField "")
              (dictGetD updated_category subheadingField ""))) ∧
    find_changes [("tacori", [("Title", "Tacori")])]
        [("tacori", [("Title", "Tacori Rings")])] =
      [{ category_id := "tacori", handle := "", original_title := "Tacori",
         updated_title := "Tacori Rings", has_html_content := false,
         has_subheading := false,
         changes := ["Title: \x27Tacori\x27 ‚Üí \x27Tacori Rings\x27"],
         html_preview := "" }] := by
  refine ⟨fun o u => ⟨title_mem_changesFound o u, html_mem_changesFound o u,
    subheading_mem_changesFound o u, ?_⟩, by decide⟩
  intro x hx
  rw [changesFound_eq] at hx
  simp only [List.mem_append] at hx
  rcases hx with (hA | hB) | hC
  · split_ifs at hA
    · simp only [List.mem_singleton] at hA
      exact Or.inl hA
    · simp at hA
  · split_ifs at hB
    · simp only [List.mem_singleton] at hB
      exact Or.inr (Or.inl hB)
    · simp at hB
  · split_ifs at hC
    · simp only [List.mem_singleton] at hC
      exact Or.inr (Or.inr hC)
    · simp at hC

/-! ## Claim C9: zero-merge round trip -/

theorem dictGet_append {β : Type} (d₁ d₂ : List (String × β)) (k : String) :
    dictGet (d₁ ++ d₂) k =
      match dictGet d₁ k with
      | some v => some v
      | none => dictGet d₂ k := by
  induction d₁ with
  | nil => simp [dictGet]
  | cons p t ih =>
    obtain ⟨k₀, v₀⟩ := p
    by_cases h : k = k₀ <;> simp [dictGet, h, ih]

theorem dictSet_of_get_none {β : Type} (d : List (String × β)) (k : String) (v : β)
    (h : dictGet d k = none) : dictSet d k v = d ++ [(k, v)] := by
  induction d with
  | nil => rfl
  | cons p t ih =>
    obtain ⟨k₀, v₀⟩ := p
    by_cases hk : k = k₀
    · rw [dictGet, if_pos hk] at h
      exact absurd h (by simp)
    · rw [dictGet, if_neg hk] at h
      rw [dictSet, if_neg hk, ih h]
      simp

/-- Cleaning a row whose cleaned column names are pairwise distinct zips the
cleaned names with the stripped cells. -/
theorem cleanRow_zip (header : List String) : ∀ (r : List String) (acc : Record),
    (header.map clean_field_name).Nodup → r.length = header.length →
    (∀ k ∈ header.map clean_field_name, dictGet acc k = none) →
    (header.zip r).foldl
        (fun acc kv => dictSet acc (clean_field_name kv.1) (pyStrip kv.2)) acc =
      acc ++ (header.map clean_field_name).zip (r.map pyStrip) := by
  induction header with
  | nil => intro r acc _ _ _; simp
  | cons h hs ih =>
    intro r acc hnd hlen hacc
    cases r with
    | nil => simp at hlen
    | cons v vs =>
      obtain ⟨hnotin, hnd'⟩ := List.nodup_cons.mp (by rw [List.map_cons] at hnd; exact hnd)
      have hget : dictGet acc (clean_field_name h) = none := hacc _ (by simp)
      have hlen' : vs.length = hs.length := by simpa using hlen
      have hacc' : ∀ k ∈ hs.map clean_field_name,
          dictGet (acc ++ [(clean_field_name h, pyStrip v)]) k = none := by
        intro k hk
        have hkne : k ≠ clean_field_name h := fun e => hnotin (e ▸ hk)
        rw [dictGet_append, hacc k (by simp [hk])]
        simp [dictGet, hkne]
      simp only [List.zip_cons_cons, List.foldl_cons, List.map_cons]
      rw [dictSet_of_get_none _ _ _ hget, ih vs _ hnd' hlen' hacc']
      simp

theorem cleanRow_eq_zip (header r : List String)
    (hnd : (header.map clean_field_name).Nodup) (hlen : r.length = header.length) :
    cleanRow header r = (header.map clean_field_name).zip (r.map pyStrip) := by
  have h := cleanRow_zip header r [] hnd hlen (by intro k _; rfl)
  simpa [cleanRow] using h

theorem getD_zip_keys : ∀ (ks vs : List String), ks.Nodup → ks.length = vs.length →
    ks.map (fun k => dictGetD (ks.zip vs) k "") = vs := by
  intro ks
  induction ks with
  | nil =>
    intro vs _ hlen
    cases vs with
    | nil => rfl
    | cons v vt => simp at hlen
  | cons k kt ih =>
    intro vs hnd hlen
    cases vs with
    | nil => simp at hlen
    | cons v vt =>
      obtain ⟨hnotin, hnd'⟩ := List.nodup_cons.mp hnd
      have hlen' : kt.length = vt.length := by simpa using hlen
      simp only [List.zip_cons_cons, List.map_cons]
      have hhead : dictGetD ((k, v) :: kt.zip vt) k "" = v := by simp [dictGetD, dictGet]
      have htail : kt.map (fun k' => dictGetD ((k, v) :: kt.zip vt) k' "") =
          kt.map (fun k' => dictGetD (kt.zip vt) k' "") := by
        apply List.map_congr_left
        intro a ha
        have hak : a ≠ k := fun e => hnotin (e ▸ ha)
        simp [dictGetD, dictGet, hak]
      rw [hhead, htail, ih vt hnd' hlen']

/-- Merging against an empty source mapping changes nothing. -/
theorem updateCats_empty : ∀ (cats : List Record) (j : Nat),
    updateCats [] j cats = cats := by
  intro cats
  induction cats with
  | nil => intro j; rfl
  | cons c t ih =>
    intro j
    simp [updateCats, processCat, dictGet, ih]

/-- Counterexample to claim C9: a byte-order-marked column name is cleaned
on load, so the saved file's column set differs from the original's. -/
theorem claim_C9_counterexample :
    save_updated_categories
        (update_shopify_categories []
          ((script_load_shopify_categories
            (Except.ok ⟨["\uFEFFURL"], [["u"]]⟩)).toOption.getD [])).categories =
      some ⟨["URL"], [["u"]]⟩ ∧ ("URL" : String) ≠ "\uFEFFURL" := by decide

/-- Claim C9 as amended: loading a nonempty destination file whose cleaned
column names are pairwise distinct (and whose rows have one cell per
column), merging with an empty source mapping, and saving yields the
original column set passed through field-name cleaning, and every row's
cells passed through whitespace trimming, in the original row order. -/
theorem claim_C9_roundtrip_amended (header : List String) (rows : List (List String))
    (hne : rows ≠ []) (hnd : (header.map clean_field_name).Nodup)
    (hlen : ∀ r ∈ rows, r.length = header.length) :
    ∀ cats, script_load_shopify_categories (Except.ok ⟨header, rows⟩) = Except.ok cats →
      save_updated_categories (update_shopify_categories [] cats).categories =
        some ⟨header.map clean_field_name, rows.map (fun r => r.map pyStrip)⟩ := by
  intro cats hcats
  have hload : script_load_shopify_categories (Except.ok ⟨header, rows⟩) =
      Except.ok (rows.map (fun r => cleanRow header r)) := rfl
  rw [hload] at hcats
  injection hcats with hcats
  subst hcats
  have hupd : (update_shopify_categories []
      (rows.map (fun r => cleanRow header r))).categories =
      rows.map (fun r => cleanRow header r) := updateCats_empty _ 0
  rw [hupd]
  obtain ⟨r₀, rtail, rfl⟩ : ∃ r₀ rtail, rows = r₀ :: rtail := by
    cases rows with
    | nil => exact absurd rfl hne
    | cons a t => exact ⟨a, t, rfl⟩
  have hr₀len : r₀.length = header.length := hlen r₀ (by simp)
  have hclean : ∀ r ∈ r₀ :: rtail,
      cleanRow header r = (header.map clean_field_name).zip (r.map pyStrip) :=
    fun r hr => cleanRow_eq_zip header r hnd (hlen r hr)
  have hkeys : (cleanRow header r₀).map Prod.fst = header.map clean_field_name := by
    rw [hclean r₀ (by simp)]
    apply List.map_fst_zip
    simp [hr₀len]
  have hrow : ∀ r ∈ r₀ :: rtail,
      (header.map clean_field_name).map (fun k => dictGetD (cleanRow header r) k "") =
        r.map pyStrip := by
    intro r hr
    rw [hclean r hr]
    exact getD_zip_keys (header.map clean_field_name) (r.map pyStrip) hnd
      (by simp [hlen r hr])
  have hsave : save_updated_categories
      (cleanRow header r₀ :: rtail.map (fun r => cleanRow header r)) =
      some { header := (cleanRow header r₀).map Prod.fst,
             rows := (cleanRow header r₀ :: rtail.map (fun r => cleanRow header r)).map
               (fun rec =>
                 ((cleanRow header r₀).map Prod.fst).map (fun k => dictGetD rec k "")) } :=
    rfl
  simp only [List.map_cons] at hsave ⊢
  rw [hsave, hkeys]
  refine congrArg some (congrArg (Grid.mk (header.map clean_field_name)) ?_)
  refine congrArg₂ List.cons (hrow r₀ (by simp)) ?_
  rw [List.map_map]
  apply List.map_congr_left
  intro r hr
  simp only [Function.comp]
  exact hrow r (by simp [hr])

/-- Witness for C9 (amended) at a concrete file. -/
theorem claim_C9_roundtrip_amended_witness :
    save_updated_categories
        (update_shopify_categories []
          ((script_load_shopify_categories
            (Except.ok ⟨["ID", "Title"], [["1", " A "]]⟩)).toOption.getD [])).categories =
      some ⟨["ID", "Title"], [["1", "A"]]⟩ :=
  claim_C9_roundtrip_amended ["ID", "Title"] [["1", " A "]] (by decide) (by decide)
    (by decide)
    ((script_load_shopify_categories
      (Except.ok ⟨["ID", "Title"], [["1", " A "]]⟩)).toOption.getD []) rfl

/-! ## Claim C10: the merger does not mutate the loaded records -/

theorem list_getD_set_ne {α : Type} (l : List α) (i j : Nat) (v d : α) (h : j ≠ i) :
    (l.set i v).getD j d = l.getD j d := by
  induction l generalizing i j with
  | nil => rfl
  | cons a t ih =>
    cases i with
    | zero =>
      cases j with
      | zero => exact absurd rfl h
      | succ j => rfl
    | succ i =>
      cases j with
      | zero => rfl
      | succ j =>
        simp only [List.set_cons_succ, List.getD_cons_succ]
        exact ih i j (fun e => h (congrArg Nat.succ e))

theorem mutateLoop_getD (content_map : List (String × PLPContent)) :
    ∀ (refs : List Nat) (i : Nat) (store : List Record) (j : Nat),
      (∀ r ∈ refs, j ≠ r) →
      (mutateLoop content_map i refs store).getD j [] = store.getD j [] := by
  intro refs
  induction refs with
  | nil => intro i store j _; rfl
  | cons r t ih =>
    intro i store j hj
    rw [mutateLoop, ih (i + 1) _ j (fun r' hr' => hj r' (by simp [hr']))]
    split_ifs
    · rfl
    · cases dictGet content_map (dictGetD (store.getD r []) "Handle" "") with
      | none => rfl
      | some content => exact list_getD_set_ne _ _ _ _ _ (hj r (by simp))

/-- Claim C10: `update_shopify_categories` operates on per-record copies
(fresh cells appended to the store) and never writes through the references
of the originally loaded sequence, so every originally loaded record is
unchanged, for every source mapping and input state. -/
theorem claim_C10_no_mutation (content_map : List (String × PLPContent)) (s : HeapState)
    (hvalid : ∀ r ∈ s.shopify_refs, r < s.store.length) :
    (heap_update_shopify_categories content_map s).shopify_refs = s.shopify_refs ∧
    ∀ r ∈ s.shopify_refs,
      (heap_update_shopify_categories content_map s).store.getD r [] =
        s.store.getD r [] := by
  constructor
  · rfl
  · intro r hr
    have hfresh : ∀ r' ∈ (copyPhase s).updated_refs, r ≠ r' := by
      intro r' hr'
      simp only [copyPhase, List.mem_map, List.mem_range] at hr'
      obtain ⟨j, _, rfl⟩ := hr'
      have hv := hvalid r hr
      omega
    show (mutateLoop content_map 0 (copyPhase s).updated_refs (copyPhase s).store).getD
        r [] = _
    rw [mutateLoop_getD content_map (copyPhase s).updated_refs 0 (copyPhase s).store
      r hfresh]
    show (s.store ++ _).getD r [] = s.store.getD r []
    exact List.getD_append _ _ _ _ (hvalid r hr)

/-- Witness for C10: with a matching handle and nonempty content, the two
originally loaded records are untouched after the merge. -/
theorem claim_C10_no_mutation_witness :
    (heap_update_shopify_categories [("h", ⟨"T", "S", "D", "C"⟩)]
        ⟨[[("Handle", "h")], [("Handle", "h")]], [0, 1], []⟩).store.getD 1 [] =
      (⟨[[("Handle", "h")], [("Handle", "h")]], [0, 1], []⟩ : HeapState).store.getD 1 [] :=
  (claim_C10_no_mutation [("h", ⟨"T", "S", "D", "C"⟩)]
    ⟨[[("Handle", "h")], [("Handle", "h")]], [0, 1], []⟩ (by decide)).2 1 (by decide)

/-! ## Claim C1: the handle extractor

The supporting lemmas track how each stage of the `urlparse` pipeline
treats an appended `?query` or `#fragment`, and that stripping slashes
before splitting does not change the nonempty segments. -/

theorem spanUntil_fst_append_snd (p : Char → Bool) :
    ∀ l : List Char, (spanUntil p l).1 ++ (spanUntil p l).2 = l := by
  intro l
  induction l with
  | nil => rfl
  | cons a t ih =>
    by_cases h : p a <;> simp [spanUntil, h, ih]

theorem spanUntil_cons_pos (p : Char → Bool) (a : Char) (t : List Char) (h : p a = true) :
    spanUntil p (a :: t) = ([], a :: t) := by
  simp [spanUntil, h]

theorem spanUntil_cons_neg (p : Char → Bool) (a : Char) (t : List Char) (h : p a = false) :
    spanUntil p (a :: t) = (a :: (spanUntil p t).1, (spanUntil p t).2) := by
  simp [spanUntil, h]

theorem spanUntil_append_of_snd_nil (p : Char → Bool) :
    ∀ (l₁ l₂ : List Char), (spanUntil p l₁).2 = [] →
      spanUntil p (l₁ ++ l₂) = (l₁ ++ (spanUntil p l₂).1, (spanUntil p l₂).2) := by
  intro l₁
  induction l₁ with
  | nil => intro l₂ _; rfl
  | cons a t ih =>
    intro l₂ h
    cases ha : p a with
    | true =>
      rw [spanUntil_cons_pos p a t ha] at h
      simp at h
    | false =>
      rw [spanUntil_cons_neg p a t ha] at h
      have h' : (spanUntil p t).2 = [] := h
      rw [List.cons_append, spanUntil_cons_neg p a (t ++ l₂) ha, ih l₂ h']
      simp

theorem spanUntil_append_of_snd_cons (p : Char → Bool) :
    ∀ (l₁ l₂ : List Char) (x : Char) (rest : List Char),
      (spanUntil p l₁).2 = x :: rest →
      spanUntil p (l₁ ++ l₂) = ((spanUntil p l₁).1, x :: (rest ++ l₂)) := by
  intro l₁
  induction l₁ with
  | nil => intro l₂ x rest h; simp [spanUntil] at h
  | cons a t ih =>
    intro l₂ x rest h
    cases ha : p a with
    | true =>
      rw [spanUntil_cons_pos p a t ha] at h
      have h' : a :: t = x :: rest := h
      injection h' with h1 h2
      subst h1
      subst h2
      rw [List.cons_append, spanUntil_cons_pos p a (t ++ l₂) ha,
        spanUntil_cons_pos p a t ha]
    | false =>
      rw [spanUntil_cons_neg p a t ha] at h
      have h' : (spanUntil p t).2 = x :: rest := h
      rw [List.cons_append, spanUntil_cons_neg p a (t ++ l₂) ha, ih l₂ x rest h',
        spanUntil_cons_neg p a t ha]

/-- If `c` is not a scheme character it is in particular not an ASCII
letter. -/
theorem isSchemeChar_of_alpha (c : Char) (h : isSchemeChar c = false) :
    isAsciiAlpha c = false := by
  unfold isSchemeChar at h
  exact (Bool.or_eq_false_iff.mp
    (Bool.or_eq_false_iff.mp
      (Bool.or_eq_false_iff.mp (Bool.or_eq_false_iff.mp h).1).1).1).1

/-- Appending `c :: V` past the scheme stage: when `c` is neither `:` nor a
scheme character, the scheme is unchanged and the remainder is extended. -/
theorem splitScheme_append (U V : List Char) (c : Char)
    (hc : (c == ':') = false) (hsc : isSchemeChar c = false) :
    splitScheme (U ++ c :: V) = ((splitScheme U).1, (splitScheme U).2 ++ c :: V) := by
  rcases hspan : spanUntil (fun x => x == ':') U with ⟨before, after⟩
  cases after with
  | nil =>
    have hbefore : before = U := by
      have h := spanUntil_fst_append_snd (fun x => x == ':') U
      rw [hspan] at h
      simpa using h
    rw [hbefore] at hspan
    have hcomb := spanUntil_append_of_snd_nil (fun x => x == ':') U (c :: V)
      (by rw [hspan])
    rcases hspanV : spanUntil (fun x => x == ':') V with ⟨vb, vafter⟩
    have hspanCV : spanUntil (fun x => x == ':') (c :: V) = (c :: vb, vafter) := by
      rw [spanUntil_cons_neg (fun x => x == ':') c V hc, hspanV]
    rw [hspanCV] at hcomb
    cases vafter with
    | nil =>
      unfold splitScheme
      rw [hcomb, hspan]
    | cons x xs =>
      unfold splitScheme
      rw [hcomb, hspan]
      cases U with
      | nil =>
        simp [isSchemeChar_of_alpha c hsc]
      | cons u₀ urest =>
        have hall : ((urest ++ c :: vb).all isSchemeChar) = false := by
          simp [List.all_append, hsc]
        simp [hall]
  | cons x xs =>
    have hcomb := spanUntil_append_of_snd_cons (fun y => y == ':') U (c :: V) x xs
      (by rw [hspan])
    rw [hspan] at hcomb
    unfold splitScheme
    rw [hcomb, hspan]
    cases before with
    | nil => rfl
    | cons b bs =>
      by_cases hv : (isAsciiAlpha b && bs.all isSchemeChar) = true
      · simp [hv]
      · simp only [Bool.not_eq_true] at hv
        simp [hv]

/-- `splitNetloc` on a `//`-prefixed list. -/
theorem splitNetloc_cons2 (w : List Char) :
    splitNetloc ('/' :: '/' :: w) =
      (if (('[' ∈ (spanUntil isNetlocDelim w).1) ∧
            (']' ∉ (spanUntil isNetlocDelim w).1)) ∨
          ((']' ∈ (spanUntil isNetlocDelim w).1) ∧
            ('[' ∉ (spanUntil isNetlocDelim w).1)) then
        Except.error "Invalid IPv6 URL"
       else Except.ok (spanUntil isNetlocDelim w)) := rfl

theorem splitNetloc_nil : splitNetloc [] = Except.ok ([], []) := rfl

theorem splitNetloc_single (a : Char) : splitNetloc [a] = Except.ok ([], [a]) := by
  unfold splitNetloc
  rw [if_neg]
  intro h
  have h' : a :: ([] : List Char).take 1 = ['/', '/'] := h
  injection h' with _ h2
  exact absurd h2 (by simp)

theorem splitNetloc_fst_ne (a : Char) (l : List Char) (ha : a ≠ '/') :
    splitNetloc (a :: l) = Except.ok ([], a :: l) := by
  unfold splitNetloc
  rw [if_neg]
  intro h
  have h' : a :: l.take 1 = ['/', '/'] := h
  injection h' with h1 _
  exact ha h1

theorem splitNetloc_snd_ne (a b : Char) (l : List Char) (hb : b ≠ '/') :
    splitNetloc (a :: b :: l) = Except.ok ([], a :: b :: l) := by
  unfold splitNetloc
  rw [if_neg]
  intro h
  have h' : a :: b :: ([] : List Char) = ['/', '/'] := h
  injection h' with _ h2
  injection h2 with h3 _
  exact hb h3

/-- Appending `c :: V` past the netloc stage, for a delimiter `c` other
than `/`: the netloc (and any bracket error) is unchanged and the
remainder extended. -/
theorem splitNetloc_append (W V : List Char) (c : Char)
    (hdelim : isNetlocDelim c = true) (hslash : c ≠ '/') :
    splitNetloc (W ++ c :: V) =
      (match splitNetloc W with
       | Except.error e => Except.error e
       | Except.ok na => Except.ok (na.1, na.2 ++ c :: V)) := by
  match W with
  | [] =>
    rw [List.nil_append, splitNetloc_fst_ne c V hslash, splitNetloc_nil]
    rfl
  | [a] =>
    rw [List.cons_append, List.nil_append, splitNetloc_snd_ne a c V hslash,
      splitNetloc_single a]
    rfl
  | a :: b :: w =>
    by_cases hab : a = '/' ∧ b = '/'
    · obtain ⟨rfl, rfl⟩ := hab
      rw [List.cons_append, List.cons_append, splitNetloc_cons2 (w ++ c :: V),
        splitNetloc_cons2 w]
      rcases hsp : spanUntil isNetlocDelim w with ⟨n, after⟩
      cases after with
      | nil =>
        have hn : n = w := by
          have h := spanUntil_fst_append_snd isNetlocDelim w
          rw [hsp] at h
          simpa using h
        have hcomb := spanUntil_append_of_snd_nil isNetlocDelim w (c :: V)
          (by rw [hsp])
        rw [spanUntil_cons_pos isNetlocDelim c V hdelim] at hcomb
        rw [hcomb, hn]
        dsimp only
        simp only [List.append_nil]
        by_cases hbr : (('[' ∈ w) ∧ (']' ∉ w)) ∨ ((']' ∈ w) ∧ ('[' ∉ w))
        · rw [if_pos hbr, if_pos hbr]
        · rw [if_neg hbr, if_neg hbr]
          rfl
      | cons x xs =>
        have hcomb := spanUntil_append_of_snd_cons isNetlocDelim w (c :: V) x xs
          (by rw [hsp])
        rw [hsp] at hcomb
        rw [hcomb]
        dsimp only
        by_cases hbr : (('[' ∈ n) ∧ (']' ∉ n)) ∨ ((']' ∈ n) ∧ ('[' ∉ n))
        · rw [if_pos hbr, if_pos hbr]
        · rw [if_neg hbr, if_neg hbr]
          rfl
    · have hne : splitNetloc (a :: b :: w) = Except.ok ([], a :: b :: w) := by
        by_cases ha : a = '/'
        · subst ha
          have hb : b ≠ '/' := fun e => hab ⟨rfl, e⟩
          exact splitNetloc_snd_ne '/' b w hb
        · exact splitNetloc_fst_ne a (b :: w) ha
      have hne2 : splitNetloc ((a :: b :: w) ++ c :: V) =
          Except.ok ([], (a :: b :: w) ++ c :: V) := by
        by_cases ha : a = '/'
        · subst ha
          have hb : b ≠ '/' := fun e => hab ⟨rfl, e⟩
          exact splitNetloc_snd_ne '/' b (w ++ c :: V) hb
        · exact splitNetloc_fst_ne a (b :: w ++ c :: V) ha
      rw [hne2, hne]

theorem beforeChar_cons_self (c : Char) (l : List Char) : beforeChar c (c :: l) = [] := by
  simp [beforeChar]

theorem beforeChar_cons_ne (c d : Char) (l : List Char) (h : d ≠ c) :
    beforeChar c (d :: l) = d :: beforeChar c l := by
  simp [beforeChar, h]

theorem beforeChar_of_not_mem (c : Char) : ∀ l : List Char, c ∉ l → beforeChar c l = l := by
  intro l
  induction l with
  | nil => intro _; rfl
  | cons a t ih =>
    intro h
    have ha : a ≠ c := fun e => h (by simp [e])
    rw [beforeChar_cons_ne c a t ha, ih (fun ht => h (by simp [ht]))]

theorem beforeChar_append_of_not_mem (c : Char) :
    ∀ l₁ l₂ : List Char, c ∉ l₁ → beforeChar c (l₁ ++ l₂) = l₁ ++ beforeChar c l₂ := by
  intro l₁
  induction l₁ with
  | nil => intro l₂ _; rfl
  | cons a t ih =>
    intro l₂ h
    have ha : a ≠ c := fun e => h (by simp [e])
    rw [List.cons_append, beforeChar_cons_ne c a (t ++ l₂) ha,
      ih l₂ (fun ht => h (by simp [ht])), List.cons_append]

/-- Everything kept by `spanUntil` comes from the input. -/
theorem mem_of_mem_spanUntil_fst (p : Char → Bool) (l : List Char) (x : Char)
    (h : x ∈ (spanUntil p l).1) : x ∈ l := by
  have hl := spanUntil_fst_append_snd p l
  rw [← hl]
  exact List.mem_append_left _ h

theorem mem_of_mem_spanUntil_snd (p : Char → Bool) (l : List Char) (x : Char)
    (h : x ∈ (spanUntil p l).2) : x ∈ l := by
  have hl := spanUntil_fst_append_snd p l
  rw [← hl]
  exact List.mem_append_right _ h

/-- The remainder after the scheme split comes from the input. -/
theorem mem_of_mem_splitScheme_snd (U : List Char) (x : Char)
    (h : x ∈ (splitScheme U).2) : x ∈ U := by
  unfold splitScheme at h
  rcases hspan : spanUntil (fun y => y == ':') U with ⟨before, after⟩
  rw [hspan] at h
  have hU := spanUntil_fst_append_snd (fun y => y == ':') U
  rw [hspan] at hU
  cases after with
  | nil => exact h
  | cons y ys =>
    cases before with
    | nil => exact h
    | cons b bs =>
      by_cases hv : (isAsciiAlpha b && bs.all isSchemeChar) = true
      · simp only [hv, if_true] at h
        rw [← hU]
        simp only [List.mem_append, List.mem_cons]
        exact Or.inr (Or.inr h)
      · simp only [hv, if_false] at h
        exact h

/-- The remainder after the netloc split comes from the input. -/
theorem mem_of_mem_splitNetloc_snd (U : List Char) (n A : List Char) (x : Char)
    (hok : splitNetloc U = Except.ok (n, A)) (h : x ∈ A) : x ∈ U := by
  unfold splitNetloc at hok
  by_cases ht : U.take 2 = ['/', '/']
  · rw [if_pos ht] at hok
    split_ifs at hok
    injection hok with hok
    have hA : A = (spanUntil isNetlocDelim (U.drop 2)).2 := by
      rw [hok]
    rw [hA] at h
    have h2 := mem_of_mem_spanUntil_snd isNetlocDelim (U.drop 2) x h
    exact List.drop_subset 2 U h2
  · rw [if_neg ht] at hok
    injection hok with hok
    injection hok with h1 h2
    rw [← h2] at h
    exact h

theorem mem_of_mem_sanitize (l : List Char) (x : Char) (h : x ∈ sanitize l) : x ∈ l := by
  unfold sanitize at h
  exact (l.dropWhile_subset isC0OrSpace) (List.mem_of_mem_filter h)

/-- `parsePath` ignores an appended `?query` when the part before it
contains neither `?` nor `#`. -/
theorem parsePath_append_query (U Q : List Char) (hq : '?' ∉ U) (hh : '#' ∉ U) :
    parsePath (U ++ '?' :: Q) = parsePath U := by
  have hs := splitScheme_append U Q '?' (by decide) (by decide)
  have hWq : '?' ∉ (splitScheme U).2 := fun hm => hq (mem_of_mem_splitScheme_snd U '?' hm)
  have hWh : '#' ∉ (splitScheme U).2 := fun hm => hh (mem_of_mem_splitScheme_snd U '#' hm)
  have hn := splitNetloc_append (splitScheme U).2 Q '?' (by decide) (by decide)
  unfold parsePath
  rw [hs]
  dsimp only
  rw [hn]
  cases hW : splitNetloc (splitScheme U).2 with
  | error e => rfl
  | ok na =>
    rcases na with ⟨n, A⟩
    have hAq : '?' ∉ A := fun hm =>
      hWq (mem_of_mem_splitNetloc_snd (splitScheme U).2 n A '?' hW hm)
    have hAh : '#' ∉ A := fun hm =>
      hWh (mem_of_mem_splitNetloc_snd (splitScheme U).2 n A '#' hW hm)
    dsimp only
    have hfragL : beforeChar '#' (A ++ '?' :: Q) = A ++ '?' :: beforeChar '#' Q := by
      rw [beforeChar_append_of_not_mem '#' A ('?' :: Q) hAh,
        beforeChar_cons_ne '#' '?' Q (by decide)]
    have hqueryL : beforeChar '?' (A ++ '?' :: beforeChar '#' Q) = A := by
      rw [beforeChar_append_of_not_mem '?' A _ hAq, beforeChar_cons_self]
      simp
    rw [hfragL, hqueryL, beforeChar_of_not_mem '#' A hAh,
      beforeChar_of_not_mem '?' A hAq]

/-- `parsePath` ignores an appended `#fragment` when the part before it
contains no `#`. -/
theorem parsePath_append_fragment (U F : List Char) (hh : '#' ∉ U) :
    parsePath (U ++ '#' :: F) = parsePath U := by
  have hs := splitScheme_append U F '#' (by decide) (by decide)
  have hWh : '#' ∉ (splitScheme U).2 := fun hm => hh (mem_of_mem_splitScheme_snd U '#' hm)
  have hn := splitNetloc_append (splitScheme U).2 F '#' (by decide) (by decide)
  unfold parsePath
  rw [hs]
  dsimp only
  rw [hn]
  cases hW : splitNetloc (splitScheme U).2 with
  | error e => rfl
  | ok na =>
    rcases na with ⟨n, A⟩
    have hAh : '#' ∉ A := fun hm =>
      hWh (mem_of_mem_splitNetloc_snd (splitScheme U).2 n A '#' hW hm)
    dsimp only
    have hfragL : beforeChar '#' (A ++ '#' :: F) = A := by
      rw [beforeChar_append_of_not_mem '#' A _ hAh, beforeChar_cons_self]
      simp
    rw [hfragL, beforeChar_of_not_mem '#' A hAh]

theorem dropWhile_append_cons (p : Char → Bool) :
    ∀ (l₁ : List Char) (c : Char) (l₂ : List Char), p c = false →
      (l₁ ++ c :: l₂).dropWhile p = l₁.dropWhile p ++ c :: l₂ := by
  intro l₁ c l₂ hc
  induction l₁ with
  | nil => simp [List.dropWhile_cons, hc]
  | cons a t ih =>
    cases ha : p a <;> simp [List.dropWhile_cons, ha, ih]

theorem sanitize_append_cons (l₁ l₂ : List Char) (c : Char)
    (hC0 : isC0OrSpace c = false) (hU : isUnsafeUrlChar c = false) :
    sanitize (l₁ ++ c :: l₂) =
      sanitize l₁ ++ c :: l₂.filter (fun x => !(isUnsafeUrlChar x)) := by
  unfold sanitize
  rw [dropWhile_append_cons isC0OrSpace l₁ c l₂ hC0, List.filter_append,
    List.filter_cons]
  simp [hU]

theorem urlparse_path_append_query (u q : String) (hq : '?' ∉ u.data)
    (hh : '#' ∉ u.data) : urlparse_path (u ++ "?" ++ q) = urlparse_path u := by
  have hq' : '?' ∉ sanitize u.data := fun hm => hq (mem_of_mem_sanitize u.data '?' hm)
  have hh' : '#' ∉ sanitize u.data := fun hm => hh (mem_of_mem_sanitize u.data '#' hm)
  have h1 : ("?" : String).data = ['?'] := rfl
  have hdata : (u ++ "?" ++ q).data = u.data ++ '?' :: q.data := by
    rw [string_data_append, string_data_append, h1]
    simp
  unfold urlparse_path
  rw [hdata, sanitize_append_cons u.data q.data '?' (by decide) (by decide),
    parsePath_append_query (sanitize u.data)
      (q.data.filter (fun x => !(isUnsafeUrlChar x))) hq' hh']

theorem urlparse_path_append_fragment (u f : String) (hh : '#' ∉ u.data) :
    urlparse_path (u ++ "#" ++ f) = urlparse_path u := by
  have hh' : '#' ∉ sanitize u.data := fun hm => hh (mem_of_mem_sanitize u.data '#' hm)
  have h1 : ("#" : String).data = ['#'] := rfl
  have hdata : (u ++ "#" ++ f).data = u.data ++ '#' :: f.data := by
    rw [string_data_append, string_data_append, h1]
    simp
  unfold urlparse_path
  rw [hdata, sanitize_append_cons u.data f.data '#' (by decide) (by decide),
    parsePath_append_fragment (sanitize u.data)
      (f.data.filter (fun x => !(isUnsafeUrlChar x))) hh']

theorem splitChar_ne_nil (c : Char) : ∀ l : List Char, splitChar c l ≠ [] := by
  intro l
  match l with
  | [] => simp [splitChar]
  | a :: t =>
    by_cases hac : (a == c) = true
    · simp [splitChar, hac]
    · cases hrec : splitChar c t with
      | nil => simp [splitChar, hac, hrec]
      | cons h r => simp [splitChar, hac, hrec]

theorem splitChar_append_single (c : Char) :
    ∀ l : List Char, splitChar c (l ++ [c]) = splitChar c l ++ [[]] := by
  intro l
  induction l with
  | nil => simp [splitChar]
  | cons a t ih =>
    by_cases hac : (a == c) = true
    · simp [splitChar, hac, ih]
    · cases hrec : splitChar c t with
      | nil => exact absurd hrec (splitChar_ne_nil c t)
      | cons h r => simp [splitChar, hac, ih, hrec]

theorem filter_splitChar_replicate (c : Char) :
    ∀ (n : Nat) (l : List Char),
      (splitChar c (l ++ List.replicate n c)).filter (fun x => x ≠ []) =
        (splitChar c l).filter (fun x => x ≠ []) := by
  intro n
  induction n with
  | zero => intro l; simp
  | succ n ih =>
    intro l
    have hshift : l ++ List.replicate (n + 1) c = (l ++ [c]) ++ List.replicate n c := by
      rw [List.replicate_succ, List.append_assoc]
      rfl
    rw [hshift, ih (l ++ [c]), splitChar_append_single c l, List.filter_append]
    simp

theorem filter_splitChar_dropWhile (c : Char) :
    ∀ l : List Char,
      (splitChar c (l.dropWhile (fun x => x == c))).filter (fun x => x ≠ []) =
        (splitChar c l).filter (fun x => x ≠ []) := by
  intro l
  induction l with
  | nil => rfl
  | cons a t ih =>
    by_cases hac : (a == c) = true
    · rw [List.dropWhile_cons]
      simp only [hac, if_true]
      rw [ih]
      simp [splitChar, hac]
    · rw [List.dropWhile_cons, if_neg hac]

/-- Stripping the separator from both ends does not change the nonempty
fields of the split. -/
theorem filter_splitChar_strip (c : Char) (l : List Char) :
    (splitChar c ((l.dropWhile (fun x => x == c)).rdropWhile (fun x => x == c))).filter
        (fun x => x ≠ []) =
      (splitChar c l).filter (fun x => x ≠ []) := by
  have h1 : (l.dropWhile (fun x => x == c)).rdropWhile (fun x => x == c) ++
      (l.dropWhile (fun x => x == c)).rtakeWhile (fun x => x == c) =
      l.dropWhile (fun x => x == c) := by
    rw [List.rdropWhile, List.rtakeWhile, ← List.reverse_append,
      List.takeWhile_append_dropWhile, List.reverse_reverse]
  have h2 : (l.dropWhile (fun x => x == c)).rtakeWhile (fun x => x == c) =
      List.replicate ((l.dropWhile (fun x => x == c)).rtakeWhile (fun x => x == c)).length
        c := by
    apply List.eq_replicate_of_mem
    intro b hb
    have := List.mem_rtakeWhile_imp hb
    simpa using this
  calc (splitChar c ((l.dropWhile (fun x => x == c)).rdropWhile (fun x => x == c))).filter
        (fun x => x ≠ [])
      = (splitChar c ((l.dropWhile (fun x => x == c)).rdropWhile (fun x => x == c) ++
          List.replicate
            ((l.dropWhile (fun x => x == c)).rtakeWhile (fun x => x == c)).length
            c)).filter (fun x => x ≠ []) :=
        (filter_splitChar_replicate c _ _).symm
    _ = (splitChar c (l.dropWhile (fun x => x == c))).filter (fun x => x ≠ []) := by
        rw [← h2, h1]
    _ = (splitChar c l).filter (fun x => x ≠ []) := filter_splitChar_dropWhile c l

theorem string_mk_eq_empty_iff (l : List Char) : String.mk l = "" ↔ l = [] := by
  constructor
  · intro h
    have h2 := congrArg String.data h
    simpa using h2
  · intro h
    rw [h]

theorem filter_map_mk (L : List (List Char)) :
    (L.map String.mk).filter (fun s => s ≠ "") =
      (L.filter (fun x => x ≠ [])).map String.mk := by
  rw [List.filter_map]
  congr 1
  apply List.filter_congr
  intro l _
  simp [Function.comp, string_mk_eq_empty_iff]

/-- The nonempty segments of the slash-stripped path are those of the
path itself. -/
theorem segments_strip (p : String) :
    (splitCharS '/' (pyStripChar '/' p)).filter (fun s => s ≠ "") =
      (splitCharS '/' p).filter (fun s => s ≠ "") := by
  unfold splitCharS pyStripChar pyStripPred
  rw [show (String.mk ((p.data.dropWhile (fun x => x == '/')).rdropWhile
      (fun x => x == '/'))).data =
      (p.data.dropWhile (fun x => x == '/')).rdropWhile (fun x => x == '/') from rfl]
  rw [filter_map_mk, filter_map_mk, filter_splitChar_strip]

/-- Claim C1: the handle extractor returns the last nonempty path segment
of the parsed URL's path with one trailing `.html` removed (null when the
URL is empty or the path has no nonempty segment); the four spec examples
hold, a `.HTML`/`.htm` suffix is not stripped (case-sensitive exact
match), and an appended query string or fragment never changes the
result. -/
theorem claim_C1_handle_extractor :
    (∀ (url p : String), url ≠ "" → urlparse_path url = Except.ok p →
      extract_handle_from_url url =
        (((splitCharS '/' p).filter (fun s => s ≠ "")).getLast?).map stripHtmlSuffix) ∧
    extract_handle_from_url "https://x.com/a/b/tacori.html" = some "tacori" ∧
    extract_handle_from_url "https://x.com/a/b/tacori.html/" = some "tacori" ∧
    extract_handle_from_url "https://x.com" = none ∧
    extract_handle_from_url "" = none ∧
    extract_handle_from_url "https://x.com/a.HTML" = some "a.HTML" ∧
    extract_handle_from_url "https://x.com/a.htm" = some "a.htm" ∧
    (∀ (u q : String), '?' ∉ u.data → '#' ∉ u.data →
      extract_handle_from_url (u ++ "?" ++ q) = extract_handle_from_url u) ∧
    (∀ (u f : String), '#' ∉ u.data →
      extract_handle_from_url (u ++ "#" ++ f) = extract_handle_from_url u) := by
  refine ⟨?_, by decide, by decide, by decide, by decide, by decide, by decide, ?_, ?_⟩
  · intro url p hne hparse
    have hex : extract_handle_from_url url =
        (match ((splitCharS '/' (pyStripChar '/' p)).filter
            (fun s => s ≠ "")).getLast? with
         | none => none
         | some h => some (stripHtmlSuffix h)) := by
      unfold extract_handle_from_url
      rw [if_neg hne, hparse]
    rw [hex, segments_strip p]
    cases ((splitCharS '/' p).filter (fun s => s ≠ "")).getLast? <;> rfl
  · intro u q hq hh
    have hparse := urlparse_path_append_query u q hq hh
    have hne : u ++ "?" ++ q ≠ "" := by
      intro h
      have h2 := congrArg String.data h
      rw [string_data_append, string_data_append] at h2
      simp at h2
    by_cases hu : u = ""
    · subst hu
      unfold extract_handle_from_url
      rw [if_neg hne, if_pos rfl, hparse]
      rfl
    · unfold extract_handle_from_url
      rw [if_neg hne, if_neg hu, hparse]
  · intro u f hh
    have hparse := urlparse_path_append_fragment u f hh
    have hne : u ++ "#" ++ f ≠ "" := by
      intro h
      have h2 := congrArg String.data h
      rw [string_data_append, string_data_append] at h2
      simp at h2
    by_cases hu : u = ""
    · subst hu
      unfold extract_handle_from_url
      rw [if_neg hne, if_pos rfl, hparse]
      rfl
    · unfold extract_handle_from_url
      rw [if_neg hne, if_neg hu, hparse]

/-- Witness for C1 at concrete inputs: the general form applied to a
parsed path, and a query appended to a concrete URL. -/
theorem claim_C1_handle_extractor_witness :
    extract_handle_from_url "https://x.com/a/b" =
      (((splitCharS '/' "/a/b").filter (fun s => s ≠ "")).getLast?).map
        stripHtmlSuffix ∧
    extract_handle_from_url ("https://x.com/a/b" ++ "?" ++ "color=red") =
      extract_handle_from_url "https://x.com/a/b" :=
  ⟨claim_C1_handle_extractor.1 "https://x.com/a/b" "/a/b" (by decide) (by rfl),
   (claim_C1_handle_extractor.2.2.2.2.2.2.2.1 "https://x.com/a/b" "color=red"
     (by decide) (by decide))⟩

end PLPMigration